import Mathlib

/-!
Shallow embedding of `src/training_utils.py` from the
persistent-exclusion-process repository, together with proofs of the
behavioural claims about it.

Images are modelled as rectangular pixel grids: a height, a width and a
pixel function on natural-number coordinates (positions outside the
grid are irrelevant).  Pixel values, labels and losses are rationals.
Randomness (the per-image multiplicative noise and the final shuffle of
the dataset) is modelled nondeterministically, as explicit parameters.
Fallible library behaviour (numpy broadcasting, the unbound `shape`
local when no file matched, indexing an empty match list) is modelled
with `Except`.
-/

/-- A 2-D image: height, width and a pixel map.  Mirrors a numpy 2-D array
(the trailing singleton channel axis added by `reshape` is tracked only in
the returned shape triple, since it does not change the pixel grid). -/
structure Img where
  h : Nat
  w : Nat
  pix : Nat → Nat → ℚ

/-- `np.roll(img, (k0, k1), axis=(0, 1))`: output pixel `(i, j)` is the
input pixel at `((i - k0) mod h, (j - k1) mod w)`, with wrap-around. -/
def rollImg (k₀ k₁ : Int) (a : Img) : Img :=
  ⟨a.h, a.w, fun i j =>
    a.pix (((i : Int) - k₀) % (a.h : Int)).toNat
          (((j : Int) - k₁) % (a.w : Int)).toNat⟩

/- ### The regex `[-+]?\d*\.\d+|\d+` and `re.findall` -/

/-- First alternative `[-+]?\d*\.\d+` of the float pattern, matched at the
head of the character list.  Returns the matched characters and the rest.
The regex engine's backtracking never produces a different outcome here:
if the greedy choice of sign and integer digits fails, every shorter
choice also fails (a digit can never match `.`). -/
def signSplit (l : List Char) : List Char × List Char :=
  match l with
  | c :: rest => if c = '-' || c = '+' then ([c], rest) else ([], l)
  | [] => ([], [])

def tryAlt1 (l : List Char) : Option (List Char × List Char) :=
  let p := signSplit l
  match p.2.dropWhile Char.isDigit with
  | c :: r3 =>
    if c = '.' then
      let fs := r3.takeWhile Char.isDigit
      if fs = [] then none
      else some (p.1 ++ p.2.takeWhile Char.isDigit ++ '.' :: fs, r3.dropWhile Char.isDigit)
    else none
  | [] => none

/-- Second alternative `\d+`: a maximal nonempty digit run at the head. -/
def tryAlt2 (l : List Char) : Option (List Char × List Char) :=
  match l with
  | c :: _ => if c.isDigit then some (l.takeWhile Char.isDigit, l.dropWhile Char.isDigit) else none
  | [] => none

/-- Try to match the pattern at the head of `l`; alternation prefers the
first alternative, as in the `re` engine. -/
def matchAt (l : List Char) : Option (List Char × List Char) :=
  match tryAlt1 l with
  | some r => some r
  | none => tryAlt2 l

/-- The `re.findall` scan: at each position try to match; on success emit
the match and resume after it, otherwise advance one character.  `fuel`
bounds the recursion; `fuel = l.length` always suffices because every
match is nonempty. -/
def findallAux : Nat → List Char → List (List Char)
  | 0, _ => []
  | _, [] => []
  | fuel + 1, c :: rest =>
    match matchAt (c :: rest) with
    | some (m, r) => m :: findallAux fuel r
    | none => findallAux fuel rest

/-- `extract_floats(string)`: `re.findall(r"[-+]?\d*\.\d+|\d+", string)`. -/
def extract_floats (s : String) : List String :=
  (findallAux s.data.length s.data).map fun m => String.mk m

/-- Drop one leading sign character, the `[-+]?` of the pattern. -/
def stripSign (m : List Char) : List Char :=
  match m with
  | c :: rest => if c = '-' || c = '+' then rest else m
  | [] => []

/-- A string that the float pattern matches in full: either
`[-+]?\d*\.\d+` or `\d+` consuming the whole string. -/
def isFloatToken (m : List Char) : Bool :=
  (match (stripSign m).dropWhile Char.isDigit with
   | c :: fs => c = '.' && !fs.isEmpty && fs.all Char.isDigit
   | [] => false)
  || (!m.isEmpty && m.all Char.isDigit)

/-- Interleaving of gap segments with match segments, used to state that
`findall` returns disjoint substrings in left-to-right order. -/
def interleave : List (List Char) → List (List Char) → List Char
  | [], _ => []
  | g :: _, [] => g
  | g :: gs, m :: ms => g ++ m ++ interleave gs ms

/- ### Parsing the extracted label, `float(...)` -/

/-- Numeric value of a digit string. -/
def digitsToNat (ds : List Char) : Nat :=
  ds.foldl (fun acc c => acc * 10 + (c.toNat - '0'.toNat)) 0

/-- `float(s)` on the decimal strings produced by `extract_floats`:
optional sign, integer digits, optional `.` and fraction digits, read
exactly (rationals stand in for Python floats). -/
def parseFloatQ (s : String) : ℚ :=
  let p : ℚ × List Char :=
    match s.data with
    | c :: rest =>
      if c = '-' then (-1, rest) else if c = '+' then (1, rest) else (1, s.data)
    | [] => (1, [])
  let ip := p.2.takeWhile Char.isDigit
  let rest := p.2.dropWhile Char.isDigit
  let fp : List Char :=
    match rest with
    | '.' :: fs => fs.takeWhile Char.isDigit
    | _ => []
  p.1 * ((digitsToNat ip : ℚ) + (digitsToNat fp : ℚ) / (10 ^ fp.length))

/-- `float(extract_floats(f)[0])`: the label of a file is the first float
substring of its path (0 is never reached for a path with a match; the
no-match case is an error in `data_load` itself). -/
def fileLabel (path : String) : ℚ :=
  match extract_floats path with
  | t :: _ => parseFloatQ t
  | [] => 0

/- ### The loader `data_load` -/

/-- `np.random.randint(1, 5, size=(128, 128))` has hard-coded shape
128×128; the drawn values are a parameter of the model. -/
def mkNoise (v : Nat → Nat → ℚ) : Img :=
  ⟨128, 128, v⟩

/-- numpy broadcasting of one axis: the two extents are compatible when
they are equal or one of them is 1; the result is the larger one. -/
def bcDim (a b : Nat) : Option Nat :=
  if a = b then some a else if a = 1 then some b else if b = 1 then some a else none

/-- Elementwise product of two 2-D arrays under numpy broadcasting;
`none` models the `ValueError: operands could not be broadcast together`. -/
def broadcastMul (a b : Img) : Option Img :=
  match bcDim a.h b.h, bcDim a.w b.w with
  | some hh, some ww =>
    some ⟨hh, ww, fun i j =>
      a.pix (if a.h = 1 then 0 else i) (if a.w = 1 then 0 else j) *
      b.pix (if b.h = 1 then 0 else i) (if b.w = 1 then 0 else j)⟩
  | _, _ => none

/-- The per-image transformation of `data_load`: with `orientation` the
pixels are divided by 4; otherwise positive pixels are set to 1, and with
`scrambled` the result is further multiplied by the 128×128 noise array
and divided by 4. -/
def processImage (orientation scrambled : Bool) (noise : Img) (img : Img) :
    Except String Img :=
  if orientation then
    .ok ⟨img.h, img.w, fun i j => img.pix i j / 4⟩
  else
    let b : Img := ⟨img.h, img.w, fun i j => if 0 < img.pix i j then 1 else img.pix i j⟩
    if scrambled then
      match broadcastMul b noise with
      | some m => .ok ⟨m.h, m.w, fun i j => m.pix i j / 4⟩
      | none => .error "operands could not be broadcast together"
    else
      .ok b

/-- The accumulator of the loading loops: the `inputs` and `outputs`
lists, the last-assigned `shape` (none while still unassigned) and a
counter numbering the noise draws. -/
structure LoadState where
  inputs : List Img
  outputs : List ℚ
  shape : Option (Nat × Nat × Nat)
  counter : Nat

/-- One iteration of the inner loop of `data_load`: transform the image,
record its shape, append it and its two rolled copies to `inputs` and the
label three times to `outputs`. -/
def stepImage (orientation scrambled : Bool) (noiseVals : Nat → Nat → Nat → ℚ)
    (tumble : ℚ) (st : LoadState) (raw : Img) : Except String LoadState :=
  match processImage orientation scrambled (mkNoise (noiseVals st.counter)) raw with
  | .error e => .error e
  | .ok img =>
    .ok { inputs := st.inputs ++ [img, rollImg 42 42 img, rollImg 120 120 img]
          outputs := st.outputs ++ [tumble, tumble, tumble]
          shape := some (img.h, img.w, 1)
          counter := st.counter + 1 }

/-- The inner loop over the images of one file. -/
def foldImgs (orientation scrambled : Bool) (noiseVals : Nat → Nat → Nat → ℚ)
    (tumble : ℚ) : LoadState → List Img → Except String LoadState
  | st, [] => .ok st
  | st, i :: rest =>
    match stepImage orientation scrambled noiseVals tumble st i with
    | .error e => .error e
    | .ok st1 => foldImgs orientation scrambled noiseVals tumble st1 rest

/-- The outer loop over the matched files.  A file is its path together
with the images stored under its keys; `float(extract_floats(f)[0])`
raises `IndexError` when the path contains no number. -/
def foldFiles (orientation scrambled : Bool) (noiseVals : Nat → Nat → Nat → ℚ) :
    LoadState → List (String × List Img) → Except String LoadState
  | st, [] => .ok st
  | st, f :: rest =>
    match extract_floats f.1 with
    | [] => .error "list index out of range"
    | t :: _ =>
      match foldImgs orientation scrambled noiseVals (parseFloatQ t) st f.2 with
      | .error e => .error e
      | .ok st1 => foldFiles orientation scrambled noiseVals st1 rest

/-- `np.array(l)[order]`: select the entries of `l` at the positions of
`perm` (out-of-range positions select nothing; for a permutation of the
index range this reorders `l`). -/
def applyPerm (perm : List Nat) (l : List α) : List α :=
  perm.filterMap fun i => l[i]?

/-- Total number of images stored across the matched files. -/
def totalImages (files : List (String × List Img)) : Nat :=
  (files.map fun f => f.2.length).sum

/-- `data_load`, over the list of matched files (the glob result), the two
flags, the noise values drawn for each image and the final random
permutation.  Both returned arrays are reindexed by the same `perm`,
modelled by permuting matched pairs; dereferencing the loop-local `shape`
after zero iterations raises `NameError`. -/
def data_load (files : List (String × List Img)) (orientation scrambled : Bool)
    (noiseVals : Nat → Nat → Nat → ℚ) (perm : List Nat) :
    Except String (List Img × List ℚ × (Nat × Nat × Nat)) :=
  match foldFiles orientation scrambled noiseVals ⟨[], [], none, 0⟩ files with
  | .error e => .error e
  | .ok st =>
    match st.shape with
    | none => .error "name shape is not defined"
    | some sh =>
      let pairs := (st.inputs.zip st.outputs)
      let shuffled := applyPerm perm pairs
      .ok (shuffled.map Prod.fst, shuffled.map Prod.snd, sh)

/- ### `split_dataset` -/

/-- Python slice `l[:-k]` for a nonnegative `k` (note `l[:-0] = l[:0] = []`). -/
def pySliceUptoNeg (k : Nat) (l : List α) : List α :=
  if k = 0 then [] else l.take (l.length - k)

/-- Python slice `l[-k:]` for a nonnegative `k` (note `l[-0:] = l[0:] = l`). -/
def pySliceFromNeg (k : Nat) (l : List α) : List α :=
  if k = 0 then l else l.drop (l.length - k)

/-- `split_dataset(x, y, last)`: `(x[:-last], y[:-last], x[-last:], y[-last:])`. -/
def split_dataset (x : List α) (y : List β) (last : Nat) :
    List α × List β × List α × List β :=
  (pySliceUptoNeg last x, pySliceUptoNeg last y, pySliceFromNeg last x, pySliceFromNeg last y)

/- ### The overlap statistic of `plot_violin_and_statistics` -/

/-- `predictions[np.where(actual == val)]`: the predictions at the
positions where the actual label equals `val`. -/
def predictionsMapped (predictions actual : List ℚ) (val : ℚ) : List ℚ :=
  ((actual.zip predictions).filter fun p => p.1 == val).map Prod.snd

/-- The per-label overlap indicator:
`(val + accuracy >= np.min(pm)) & (val - accuracy <= np.max(pm))` with
`accuracy = 1e-3`; `none` models `np.min` of an empty selection failing. -/
def overlapInd (predictions actual : List ℚ) (val : ℚ) : Option Bool :=
  let pm := predictionsMapped predictions actual val
  match pm.min?, pm.max? with
  | some mn, some mx => some (decide (mn ≤ val + 1/1000) && decide (val - 1/1000 ≤ mx))
  | _, _ => none

/- ### `get_huber_loss` -/

/-- Elementwise Huber loss: half the squared error below the clip
threshold, the linear continuation at or above it. -/
def get_huber_loss (y_true y_pred : ℚ) (clip_delta : ℚ := 1) : ℚ :=
  let error := y_true - y_pred
  if |error| < clip_delta then (1/2) * error ^ 2
  else clip_delta * (|error| - (1/2) * clip_delta)

/- ### Auxiliary predicates -/

/-- Whether an `Except` computation succeeded. -/
def exceptOk {ε α : Type} : Except ε α → Bool
  | .ok _ => true
  | .error _ => false

/-- The (image, label) triplets appended for a list of processed images
paired with their labels: for each pair the base image and its two
cyclically shifted copies, each carrying the same label. -/
def tripPairs (L : List (ℚ × Img)) : List (Img × ℚ) :=
  L.flatMap fun p =>
    [(p.2, p.1), (rollImg 42 42 p.2, p.1), (rollImg 120 120 p.2, p.1)]

/-- The per-image label sequence of a file list: each file contributes
its label (the parsed first float of its path) once per stored image. -/
def fileLabels (files : List (String × List Img)) : List ℚ :=
  files.flatMap fun f => f.2.map fun _ => fileLabel f.1

/-- All in-range pixels of an image take values in the given list. -/
def pixIn (a : Img) (S : List ℚ) : Prop :=
  ∀ i, i < a.h → ∀ j, j < a.w → a.pix i j ∈ S

/-- A tiny concrete dataset used to instantiate the loader theorems. -/
def sampleImg : Img :=
  ⟨1, 1, fun _ _ => 2⟩

/-- A single matched file holding `sampleImg`, labelled `0.5`. -/
def sampleFiles : List (String × List Img) :=
  [("t_0.5", [sampleImg])]

/- ### Roll index arithmetic -/

/-- Rolling an index forwards by `k` and then backwards by `k` modulo a
positive bound returns the index. -/
lemma roll_index_cancel (n : Nat) (k : Int) (i : Nat) (hi : i < n) :
    ((((((i : Int) + k) % (n : Int)).toNat : Int) - k) % (n : Int)).toNat = i := by
  have hn : (0 : Int) < (n : Int) := by exact_mod_cast Nat.pos_of_ne_zero (by omega)
  have hne : (n : Int) ≠ 0 := ne_of_gt hn
  have h1 : ((((i : Int) + k) % (n : Int)).toNat : Int) = ((i : Int) + k) % (n : Int) :=
    Int.toNat_of_nonneg (Int.emod_nonneg _ hne)
  rw [h1]
  have h2 : (((i : Int) + k) % (n : Int) - k) % (n : Int) = ((i : Int) + k - k) % (n : Int) := by
    conv_lhs => rw [Int.sub_emod]
    conv_rhs => rw [Int.sub_emod]
    rw [Int.emod_emod_of_dvd _ dvd_rfl]
  rw [h2, add_sub_cancel_right, Int.emod_eq_of_lt (by positivity) (by exact_mod_cast hi)]
  exact Int.toNat_natCast i

/-- C4: cyclically shifting rows and columns by (42, 42) with wrap-around
and then by (−42, −42) modulo the image dimensions reconstructs the
original image exactly: dimensions are unchanged and every in-range pixel
is restored, so the augmentation shift is a bijection on pixel positions. -/
theorem rollImg_roundtrip (a : Img) (i j : Nat) (hi : i < a.h) (hj : j < a.w) :
    (rollImg (-42) (-42) (rollImg 42 42 a)).h = a.h ∧
    (rollImg (-42) (-42) (rollImg 42 42 a)).w = a.w ∧
    (rollImg (-42) (-42) (rollImg 42 42 a)).pix i j = a.pix i j := by
  refine ⟨rfl, rfl, ?_⟩
  show a.pix
      ((((((i : Int) - (-42)) % (a.h : Int)).toNat : Int) - 42) % (a.h : Int)).toNat
      ((((((j : Int) - (-42)) % (a.w : Int)).toNat : Int) - 42) % (a.w : Int)).toNat
    = a.pix i j
  rw [show ((i : Int) - (-42)) = (i : Int) + 42 by ring,
      show ((j : Int) - (-42)) = (j : Int) + 42 by ring,
      roll_index_cancel a.h 42 i hi, roll_index_cancel a.w 42 j hj]

/-- C4 witness: the round trip at a concrete 3×5 image and position. -/
theorem rollImg_roundtrip_witness :
    (rollImg (-42) (-42) (rollImg 42 42 ⟨3, 5, fun i j => (i : ℚ) * 10 + j⟩)).pix 2 4
      = ((2 : ℚ) * 10 + 4) :=
  (rollImg_roundtrip ⟨3, 5, fun i j => (i : ℚ) * 10 + j⟩ 2 4 (by decide) (by decide)).2.2

/- ### C7: Huber loss -/

/-- C7: the Huber loss is half the squared error when the absolute error
is below `clip_delta` and `clip_delta * (|error| - clip_delta / 2)`
otherwise; it vanishes at zero error, and at `|error| = clip_delta` the
two branches agree. -/
theorem get_huber_loss_spec (y_true y_pred clip_delta : ℚ) (hδ : 0 < clip_delta) :
    (|y_true - y_pred| < clip_delta →
      get_huber_loss y_true y_pred clip_delta = (1/2) * (y_true - y_pred) ^ 2) ∧
    (clip_delta ≤ |y_true - y_pred| →
      get_huber_loss y_true y_pred clip_delta
        = clip_delta * (|y_true - y_pred| - (1/2) * clip_delta)) ∧
    (y_true - y_pred = 0 → get_huber_loss y_true y_pred clip_delta = 0) ∧
    (|y_true - y_pred| = clip_delta →
      (1/2) * (y_true - y_pred) ^ 2
        = clip_delta * (|y_true - y_pred| - (1/2) * clip_delta)) := by
  refine ⟨?_, ?_, ?_, ?_⟩
  · intro h
    rw [get_huber_loss, if_pos h]
  · intro h
    rw [get_huber_loss, if_neg (not_lt.mpr h)]
  · intro h
    rw [get_huber_loss, if_pos (by rw [h]; simpa using hδ), h]
    ring
  · intro h
    have hsq : (y_true - y_pred) ^ 2 = clip_delta ^ 2 := by
      rw [← sq_abs, h]
    rw [hsq, h]
    ring

/-- C7 witness: concrete evaluations in both branches with a positive
threshold. -/
theorem get_huber_loss_spec_witness :
    get_huber_loss 3 1 5 = 2 ∧ get_huber_loss 3 1 1 = 3/2 := by
  constructor
  · rw [(get_huber_loss_spec 3 1 5 (by norm_num)).1 (by norm_num)]
    norm_num
  · rw [(get_huber_loss_spec 3 1 1 (by norm_num)).2.1 (by norm_num)]
    norm_num

/- ### C5: `split_dataset` -/

/-- C5 counterexample: with `last = 0` (an integer below the dataset size)
Python's `x[:-0]` is the empty slice, so the training set has 0 samples,
not `N - 0 = N`, and the validation set has all `N` samples, not 0. -/
theorem split_dataset_zero_cex :
    ¬ ((split_dataset [(0 : ℚ)] [(0 : ℚ)] 0).1.length = 1 - 0 ∧
       (split_dataset [(0 : ℚ)] [(0 : ℚ)] 0).2.2.1.length = 0) := by
  decide

/-- C5 amended: for `1 ≤ k < N` the training set is the first `N - k`
samples, the validation set is the last `k` samples, and concatenating
training then validation reconstructs both input arrays. -/
theorem split_dataset_spec {α β : Type} (x : List α) (y : List β) (k : Nat)
    (hxy : y.length = x.length) (h1 : 1 ≤ k) (hk : k < x.length) :
    (split_dataset x y k).1.length = x.length - k ∧
    (split_dataset x y k).2.1.length = x.length - k ∧
    (split_dataset x y k).2.2.1.length = k ∧
    (split_dataset x y k).2.2.2.length = k ∧
    (split_dataset x y k).1 ++ (split_dataset x y k).2.2.1 = x ∧
    (split_dataset x y k).2.1 ++ (split_dataset x y k).2.2.2 = y := by
  have hk0 : k ≠ 0 := by omega
  simp only [split_dataset, pySliceUptoNeg, pySliceFromNeg, if_neg hk0]
  refine ⟨?_, ?_, ?_, ?_, ?_, ?_⟩
  · rw [List.length_take]
    omega
  · rw [List.length_take]
    omega
  · rw [List.length_drop]
    omega
  · rw [List.length_drop]
    omega
  · exact List.take_append_drop _ x
  · rw [hxy]
    exact List.take_append_drop _ y

/-- C5 witness: splitting a 3-element dataset with `last = 1`. -/
theorem split_dataset_spec_witness :
    (split_dataset [(1 : ℕ), 2, 3] [(4 : ℕ), 5, 6] 1).1.length = 2 := by
  have h := (split_dataset_spec [(1 : ℕ), 2, 3] [(4 : ℕ), 5, 6] 1 rfl
    (by decide) (by decide)).1
  simpa using h

/- ### C9: the scrambled branch and the hard-coded 128×128 noise shape -/

/-- Broadcasting one axis against an extent of 128 succeeds exactly for
extents 128 and 1. -/
lemma bcDim_128_isSome (a : Nat) : (bcDim a 128).isSome = true ↔ (a = 128 ∨ a = 1) := by
  unfold bcDim
  split_ifs with h1 h2 h3 <;> simp <;> omega

/-- The broadcast product is defined exactly when both axes are
compatible. -/
lemma broadcastMul_isSome (a b : Img) :
    (broadcastMul a b).isSome = true ↔
      ((bcDim a.h b.h).isSome = true ∧ (bcDim a.w b.w).isSome = true) := by
  unfold broadcastMul
  rcases h1 : bcDim a.h b.h with _ | hh <;> rcases h2 : bcDim a.w b.w with _ | ww <;>
    simp [h1, h2]

/-- `processImage false true` written out: binarize, then broadcast-multiply
with the noise array and divide by 4. -/
lemma processImage_scrambled_eq (noise img : Img) :
    processImage false true noise img =
      match broadcastMul ⟨img.h, img.w, fun i j => if 0 < img.pix i j then 1 else img.pix i j⟩
          noise with
      | some m => .ok ⟨m.h, m.w, fun i j => m.pix i j / 4⟩
      | none => .error "operands could not be broadcast together" := rfl

/-- C9: with `orientation=False, scrambled=True` the noise array has the
hard-coded shape 128×128, so the branch succeeds exactly when each of the
image's two dimensions is broadcast-compatible with 128 (equal to 128 or
to 1); in particular it fails on a 64×64 image. -/
theorem scrambled_broadcast_shape (raw : Img) (v : Nat → Nat → ℚ) :
    (exceptOk (processImage false true (mkNoise v) raw) = true ↔
      (raw.h = 128 ∨ raw.h = 1) ∧ (raw.w = 128 ∨ raw.w = 1)) ∧
    processImage false true (mkNoise v) ⟨64, 64, fun _ _ => 0⟩
      = .error "operands could not be broadcast together" := by
  constructor
  · rw [processImage_scrambled_eq]
    rcases hb : broadcastMul
        ⟨raw.h, raw.w, fun i j => if 0 < raw.pix i j then 1 else raw.pix i j⟩
        (mkNoise v) with _ | m
    · have hs := broadcastMul_isSome
        ⟨raw.h, raw.w, fun i j => if 0 < raw.pix i j then 1 else raw.pix i j⟩ (mkNoise v)
      rw [hb] at hs
      simp only [Option.isSome_none] at hs
      have : ¬ ((raw.h = 128 ∨ raw.h = 1) ∧ (raw.w = 128 ∨ raw.w = 1)) := by
        intro hc
        have := hs.mpr ⟨(bcDim_128_isSome raw.h).mpr hc.1, (bcDim_128_isSome raw.w).mpr hc.2⟩
        simp at this
      simp [exceptOk, this]
    · have hs := broadcastMul_isSome
        ⟨raw.h, raw.w, fun i j => if 0 < raw.pix i j then 1 else raw.pix i j⟩ (mkNoise v)
      rw [hb] at hs
      simp only [Option.isSome_some] at hs
      have hc := hs.mp trivial
      have hcc : (raw.h = 128 ∨ raw.h = 1) ∧ (raw.w = 128 ∨ raw.w = 1) :=
        ⟨(bcDim_128_isSome raw.h).mp hc.1, (bcDim_128_isSome raw.w).mp hc.2⟩
      simp [exceptOk, hcc]
  · rfl

/- ### Regex scan: structural lemmas -/

/-- Dropping digits from a digit block followed by a non-digit yields the
tail starting at the non-digit. -/
lemma dropWhile_digits_append (ds t : List Char) (hds : ∀ c ∈ ds, c.isDigit = true)
    (c : Char) (hc : c.isDigit = false) :
    (ds ++ c :: t).dropWhile Char.isDigit = c :: t := by
  induction ds with
  | nil => simp [List.dropWhile_cons, hc]
  | cons d ds ih =>
    have hd : d.isDigit = true := hds d (by simp)
    simp only [List.cons_append, List.dropWhile_cons, hd, if_true]
    exact ih fun x hx => hds x (by simp [hx])

/-- The sign part and the remainder of `signSplit` reassemble the input. -/
lemma signSplit_append (l : List Char) : (signSplit l).1 ++ (signSplit l).2 = l := by
  unfold signSplit
  rcases l with _ | ⟨c, rest⟩
  · rfl
  · dsimp only
    split <;> rfl

/-- The sign part is empty or a single sign character. -/
lemma signSplit_fst (l : List Char) :
    (signSplit l).1 = [] ∨ ∃ c, (c = '-' ∨ c = '+') ∧ (signSplit l).1 = [c] := by
  unfold signSplit
  rcases l with _ | ⟨c, rest⟩
  · exact Or.inl rfl
  · dsimp only
    split
    · rename_i hc
      exact Or.inr ⟨c, by simpa using hc, rfl⟩
    · exact Or.inl rfl

/-- The remainder of `signSplit` is a sublist of the input. -/
lemma signSplit_snd_sublist (l : List Char) : (signSplit l).2.Sublist l := by
  unfold signSplit
  rcases l with _ | ⟨c, rest⟩
  · exact List.Sublist.refl _
  · dsimp only
    split
    · exact (List.tail_sublist (c :: rest))
    · exact List.Sublist.refl _

/-- A digit character is not a sign character. -/
lemma digit_not_sign (c : Char) (h : c.isDigit = true) : (c = '-' ∨ c = '+') → False := by
  rintro (rfl | rfl) <;> simp at h

/-- `stripSign` of a signed token removes exactly the sign. -/
lemma stripSign_sign (c : Char) (hc : c = '-' ∨ c = '+') (t : List Char) :
    stripSign (c :: t) = t := by
  unfold stripSign
  have : (c = '-' || c = '+') = true := by
    rcases hc with rfl | rfl <;> simp
  simp [this]

/-- `stripSign` keeps an unsigned token intact. -/
lemma stripSign_not_sign (l : List Char)
    (h : ∀ c, l.head? = some c → ¬(c = '-' ∨ c = '+')) : stripSign l = l := by
  unfold stripSign
  rcases l with _ | ⟨c, rest⟩
  · rfl
  · have : (c = '-' || c = '+') = false := by
      have := h c rfl
      simp only [Bool.or_eq_false_iff, decide_eq_false_iff_not]
      exact ⟨fun hh => this (Or.inl hh), fun hh => this (Or.inr hh)⟩
    simp [this]

/-- Tokens of the first alternative `[-+]?\d*\.\d+` satisfy the float
grammar. -/
lemma isFloatToken_alt1 (sgn ds fs : List Char)
    (hsgn : sgn = [] ∨ ∃ c, (c = '-' ∨ c = '+') ∧ sgn = [c])
    (hds : ∀ c ∈ ds, c.isDigit = true)
    (hfs : fs ≠ []) (hfsd : ∀ c ∈ fs, c.isDigit = true) :
    isFloatToken (sgn ++ ds ++ '.' :: fs) = true := by
  have hstrip : stripSign (sgn ++ ds ++ '.' :: fs) = ds ++ '.' :: fs := by
    rcases hsgn with rfl | ⟨c, hc, rfl⟩
    · simp only [List.nil_append]
      apply stripSign_not_sign
      intro x hx hsx
      rcases ds with _ | ⟨d, ds1⟩
      · simp only [List.nil_append, List.head?_cons, Option.some.injEq] at hx
        rcases hsx with h1 | h1 <;> rw [← hx] at h1 <;> simp at h1
      · simp only [List.cons_append, List.head?_cons, Option.some.injEq] at hx
        exact digit_not_sign x (hx ▸ hds d (by simp)) hsx
    · simp only [List.cons_append] at *
      exact stripSign_sign c hc _
  have hmatch : (match (stripSign (sgn ++ ds ++ '.' :: fs)).dropWhile Char.isDigit with
      | c :: fs2 => c = '.' && !fs2.isEmpty && fs2.all Char.isDigit
      | [] => false) = true := by
    rw [hstrip, dropWhile_digits_append ds _ hds '.' (by decide)]
    have h1 : fs.isEmpty = false := by
      cases fs
      · exact absurd rfl hfs
      · rfl
    have h2 : fs.all Char.isDigit = true := by
      rw [List.all_eq_true]
      exact hfsd
    simp [h1, h2]
  show (_ || _) = true
  rw [hmatch]
  rfl

/-- `tryAlt1` written without the local abbreviations. -/
lemma tryAlt1_eq (l : List Char) :
    tryAlt1 l =
      (match (signSplit l).2.dropWhile Char.isDigit with
       | c :: r3 =>
         if c = '.' then
           if r3.takeWhile Char.isDigit = [] then none
           else some ((signSplit l).1 ++ (signSplit l).2.takeWhile Char.isDigit ++
               '.' :: r3.takeWhile Char.isDigit, r3.dropWhile Char.isDigit)
         else none
       | [] => none) := rfl

/-- Everything `tryAlt1` matches: nonempty, a prefix of the input,
contains a dot and satisfies the float grammar. -/
lemma tryAlt1_sound (l m r : List Char) (h : tryAlt1 l = some (m, r)) :
    m ≠ [] ∧ m ++ r = l ∧ '.' ∈ m ∧ isFloatToken m = true := by
  rw [tryAlt1_eq] at h
  cases hd : (signSplit l).2.dropWhile Char.isDigit with
  | nil =>
    rw [hd] at h
    exact absurd h (by simp)
  | cons c r3 =>
    rw [hd] at h
    dsimp only at h
    by_cases hc : c = '.'
    · subst hc
      by_cases hfs : r3.takeWhile Char.isDigit = []
      · rw [if_pos rfl, if_pos hfs] at h
        exact absurd h (by simp)
      · rw [if_pos rfl, if_neg hfs] at h
        rw [Option.some_inj, Prod.mk.injEq] at h
        obtain ⟨hm, hr⟩ := h
        have hds : ∀ x ∈ (signSplit l).2.takeWhile Char.isDigit, x.isDigit = true :=
          fun x hx => List.mem_takeWhile_imp hx
        have hfsd : ∀ x ∈ r3.takeWhile Char.isDigit, x.isDigit = true :=
          fun x hx => List.mem_takeWhile_imp hx
        refine ⟨?_, ?_, ?_, ?_⟩
        · rw [← hm]
          simp
        · rw [← hm, ← hr]
          calc (signSplit l).1 ++ (signSplit l).2.takeWhile Char.isDigit ++
                '.' :: r3.takeWhile Char.isDigit ++ r3.dropWhile Char.isDigit
              = (signSplit l).1 ++ ((signSplit l).2.takeWhile Char.isDigit ++
                '.' :: (r3.takeWhile Char.isDigit ++ r3.dropWhile Char.isDigit)) := by
                simp [List.append_assoc]
            _ = (signSplit l).1 ++ ((signSplit l).2.takeWhile Char.isDigit ++ '.' :: r3) := by
                rw [List.takeWhile_append_dropWhile]
            _ = (signSplit l).1 ++ ((signSplit l).2.takeWhile Char.isDigit ++
                  (signSplit l).2.dropWhile Char.isDigit) := by rw [hd]
            _ = (signSplit l).1 ++ (signSplit l).2 := by rw [List.takeWhile_append_dropWhile]
            _ = l := signSplit_append l
        · rw [← hm]
          simp
        · rw [← hm]
          exact isFloatToken_alt1 _ _ _ (signSplit_fst l) hds hfs hfsd
    · rw [if_neg hc] at h
      exact absurd h (by simp)

/-- Everything `tryAlt2` matches: a nonempty digit run that is a prefix
of the input and satisfies the float grammar. -/
lemma tryAlt2_sound (l m r : List Char) (h : tryAlt2 l = some (m, r)) :
    m ≠ [] ∧ m ++ r = l ∧ m.all Char.isDigit = true ∧ isFloatToken m = true := by
  unfold tryAlt2 at h
  cases l with
  | nil => exact absurd h (by simp)
  | cons c rest =>
    dsimp only at h
    by_cases hc : c.isDigit = true
    · rw [if_pos hc] at h
      rw [Option.some_inj, Prod.mk.injEq] at h
      obtain ⟨hm, hr⟩ := h
      have hne : m ≠ [] := by
        rw [← hm]
        simp [List.takeWhile_cons, hc]
      have hall : m.all Char.isDigit = true := by
        rw [← hm, List.all_eq_true]
        exact fun x hx => List.mem_takeWhile_imp hx
      have hne2 : m.isEmpty = false := by
        cases m
        · exact absurd rfl hne
        · rfl
      refine ⟨hne, ?_, hall, ?_⟩
      · rw [← hm, ← hr, List.takeWhile_append_dropWhile]
      · show (_ || _) = true
        rw [Bool.or_eq_true]
        right
        rw [hne2, hall]
        rfl
    · rw [if_neg hc] at h
      exact absurd h (by simp)

/-- Everything `matchAt` matches: nonempty, a prefix of the input,
satisfies the float grammar, and is all digits or contains a dot. -/
lemma matchAt_sound (l m r : List Char) (h : matchAt l = some (m, r)) :
    m ≠ [] ∧ m ++ r = l ∧ isFloatToken m = true ∧
      (m.all Char.isDigit = true ∨ '.' ∈ m) := by
  unfold matchAt at h
  cases h1 : tryAlt1 l with
  | none =>
    rw [h1] at h
    dsimp only at h
    obtain ⟨a, b, c, d⟩ := tryAlt2_sound l m r h
    exact ⟨a, b, d, Or.inl c⟩
  | some p =>
    rw [h1] at h
    dsimp only at h
    rw [Option.some_inj] at h
    rw [h] at h1
    obtain ⟨a, b, c, d⟩ := tryAlt1_sound l m r h1
    exact ⟨a, b, d, Or.inr c⟩

/-- On a string without digits nothing matches. -/
lemma matchAt_none_of_noDigit (l : List Char) (h : ∀ c ∈ l, c.isDigit = false) :
    matchAt l = none := by
  have h2 : ∀ x ∈ (signSplit l).2, x.isDigit = false :=
    fun x hx => h x ((signSplit_snd_sublist l).mem hx)
  have ha1 : tryAlt1 l = none := by
    rw [tryAlt1_eq]
    cases hd : (signSplit l).2.dropWhile Char.isDigit with
    | nil => rfl
    | cons c r3 =>
      dsimp only
      by_cases hc : c = '.'
      · subst hc
        have hfs : r3.takeWhile Char.isDigit = [] := by
          cases hfs2 : r3.takeWhile Char.isDigit with
          | nil => rfl
          | cons d ds =>
            have hdd : d.isDigit = true :=
              List.mem_takeWhile_imp (by rw [hfs2]; exact List.mem_cons_self d ds)
            have hdl : d ∈ l := by
              have h3 : d ∈ r3.takeWhile Char.isDigit := by
                rw [hfs2]
                exact List.mem_cons_self d ds
              have h4 : d ∈ r3 := (List.takeWhile_sublist _).mem h3
              have h5 : d ∈ '.' :: r3 := List.mem_cons_of_mem _ h4
              rw [← hd] at h5
              exact (signSplit_snd_sublist l).mem ((List.dropWhile_sublist _).mem h5)
            rw [h d hdl] at hdd
            cases hdd
        rw [if_pos rfl, if_pos hfs]
      · rw [if_neg hc]
  have ha2 : tryAlt2 l = none := by
    unfold tryAlt2
    cases l with
    | nil => rfl
    | cons c rest =>
      dsimp only
      have hcd : c.isDigit = false := h c (List.mem_cons_self c rest)
      rw [if_neg (by simp [hcd])]
  unfold matchAt
  rw [ha1, ha2]

/-- `re.findall` on a digit-free string finds nothing. -/
lemma findallAux_noDigit (fuel : Nat) (l : List Char)
    (h : ∀ c ∈ l, c.isDigit = false) : findallAux fuel l = [] := by
  induction fuel generalizing l with
  | zero => cases l <;> rfl
  | succ n ih =>
    cases l with
    | nil => rfl
    | cons c rest =>
      show (match matchAt (c :: rest) with
        | some (m, r) => m :: findallAux n r
        | none => findallAux n rest) = []
      rw [matchAt_none_of_noDigit _ h]
      exact ih rest fun x hx => h x (List.mem_cons_of_mem _ hx)

/-- Every match that `re.findall` emits satisfies the float grammar, and
carries a sign only together with a decimal point. -/
lemma findallAux_mem (fuel : Nat) (l : List Char) (m : List Char)
    (hm : m ∈ findallAux fuel l) :
    isFloatToken m = true ∧ (m.all Char.isDigit = true ∨ '.' ∈ m) := by
  induction fuel generalizing l with
  | zero =>
    rw [show findallAux 0 l = [] from by cases l <;> rfl] at hm
    cases hm
  | succ n ih =>
    cases l with
    | nil => cases hm
    | cons c rest =>
      have he : findallAux (n + 1) (c :: rest) =
          (match matchAt (c :: rest) with
            | some (m0, r) => m0 :: findallAux n r
            | none => findallAux n rest) := rfl
      rw [he] at hm
      cases hmm : matchAt (c :: rest) with
      | none =>
        rw [hmm] at hm
        exact ih rest hm
      | some p =>
        rw [hmm] at hm
        dsimp only at hm
        rcases List.mem_cons.mp hm with rfl | hm2
        · obtain ⟨_, _, c3, c4⟩ := matchAt_sound _ _ _
            (by rw [hmm] : matchAt (c :: rest) = some (p.1, p.2))
          exact ⟨c3, c4⟩
        · exact ih p.2 hm2

/-- Prepending a character to the first gap prepends it to the
interleaving. -/
lemma interleave_cons (c : Char) (g : List Char) (gs ms : List (List Char)) :
    interleave ((c :: g) :: gs) ms = c :: interleave (g :: gs) ms := by
  cases ms <;> rfl

/-- The matches of `re.findall` are disjoint substrings of the input in
left-to-right order: gap segments interleave them back into the input. -/
lemma findallAux_decomp (fuel : Nat) (l : List Char) (hfuel : l.length ≤ fuel) :
    ∃ gaps, gaps.length = (findallAux fuel l).length + 1 ∧
      interleave gaps (findallAux fuel l) = l := by
  induction fuel generalizing l with
  | zero =>
    have hl : l = [] := List.length_eq_zero.mp (Nat.le_zero.mp hfuel)
    subst hl
    exact ⟨[[]], rfl, rfl⟩
  | succ n ih =>
    cases l with
    | nil => exact ⟨[[]], rfl, rfl⟩
    | cons c rest =>
      have he : findallAux (n + 1) (c :: rest) =
          (match matchAt (c :: rest) with
            | some (m0, r) => m0 :: findallAux n r
            | none => findallAux n rest) := rfl
      cases hmm : matchAt (c :: rest) with
      | none =>
        have hr : rest.length ≤ n := by
          simp only [List.length_cons] at hfuel
          omega
        obtain ⟨gaps, hlen, hint⟩ := ih rest hr
        cases gaps with
        | nil => simp at hlen
        | cons g gs =>
          refine ⟨(c :: g) :: gs, ?_, ?_⟩
          · rw [he, hmm]
            simpa using hlen
          · rw [he, hmm]
            dsimp only
            rw [interleave_cons, hint]
      | some p =>
        obtain ⟨hne, happ, _, _⟩ := matchAt_sound _ _ _
          (by rw [hmm] : matchAt (c :: rest) = some (p.1, p.2))
        have hr : p.2.length ≤ n := by
          have h1 : p.1.length + p.2.length = rest.length + 1 := by
            rw [← List.length_append, happ, List.length_cons]
          have h2 : 1 ≤ p.1.length := by
            cases hp1 : p.1 with
            | nil => exact absurd hp1 hne
            | cons x xs => simp
          simp only [List.length_cons] at hfuel
          omega
        obtain ⟨gaps, hlen, hint⟩ := ih p.2 hr
        refine ⟨[] :: gaps, ?_, ?_⟩
        · rw [he, hmm]
          simpa using hlen
        · rw [he, hmm]
          dsimp only
          show ([] : List Char) ++ p.1 ++ interleave gaps (findallAux n p.2) = c :: rest
          rw [List.nil_append, hint, happ]

/- ### C2 and C10: `extract_floats` -/

set_option maxRecDepth 4000 in
/-- C2 counterexample: on the spec's example the scan also extracts the
digit of the `h5` extension, so the result is not `["0.125", "0.3"]`. -/
theorem extract_floats_example_cex :
    extract_floats "dataset_tumble_0.125_0.3.h5" ≠ ["0.125", "0.3"] := by
  decide

set_option maxRecDepth 4000 in
/-- C2 amended: on the example path the scan returns
`["0.125", "0.3", "5"]` (the trailing `5` of `h5` also matches `\d+`);
a digit-free string yields the empty sequence; every returned substring
matches the float grammar; and the returned substrings are disjoint
substrings of the input in left-to-right order (gap segments interleave
them back into the input). -/
theorem extract_floats_spec :
    extract_floats "dataset_tumble_0.125_0.3.h5" = ["0.125", "0.3", "5"] ∧
    (∀ s : String, (∀ c ∈ s.data, c.isDigit = false) → extract_floats s = []) ∧
    (∀ s : String, ∀ m ∈ extract_floats s, isFloatToken m.data = true) ∧
    (∀ s : String, ∃ gaps, gaps.length = (extract_floats s).length + 1 ∧
      interleave gaps ((extract_floats s).map String.data) = s.data) := by
  refine ⟨by decide, ?_, ?_, ?_⟩
  · intro s h
    unfold extract_floats
    rw [findallAux_noDigit _ _ h]
    rfl
  · intro s m hm
    unfold extract_floats at hm
    obtain ⟨mc, hmc, rfl⟩ := List.mem_map.mp hm
    exact (findallAux_mem _ _ _ hmc).1
  · intro s
    obtain ⟨gaps, h1, h2⟩ := findallAux_decomp s.data.length s.data (le_refl _)
    refine ⟨gaps, ?_, ?_⟩
    · rw [extract_floats, List.length_map]
      exact h1
    · rw [extract_floats, List.map_map]
      rw [show (String.data ∘ fun m => String.mk m) = id from rfl, List.map_id]
      exact h2

/-- C2 witness: the digit-free clause applied to a concrete string. -/
theorem extract_floats_spec_witness : extract_floats "abc" = [] :=
  extract_floats_spec.2.1 "abc" (by decide)

/-- C10: a signed digit run without a following decimal fraction is
returned without its sign (`"-5"` gives `"5"`, `"+7"` gives `"7"`); in
general a returned match can contain a sign character only when it also
contains a decimal point. -/
theorem extract_floats_sign_spec :
    extract_floats "-5" = ["5"] ∧ extract_floats "+7" = ["7"] ∧
    (∀ s : String, ∀ m ∈ extract_floats s,
      (∃ c ∈ m.data, c = '-' ∨ c = '+') → '.' ∈ m.data) := by
  refine ⟨by decide, by decide, ?_⟩
  intro s m hm hsig
  unfold extract_floats at hm
  obtain ⟨mc, hmc, rfl⟩ := List.mem_map.mp hm
  obtain ⟨_, hdig⟩ := findallAux_mem _ _ _ hmc
  rcases hdig with hall | hdot
  · obtain ⟨c, hc, hcs⟩ := hsig
    rw [List.all_eq_true] at hall
    exact (digit_not_sign c (hall c hc) hcs).elim
  · exact hdot

/-- C10 witness: `"-3.5"` is returned with its sign and indeed contains a
decimal point. -/
theorem extract_floats_sign_spec_witness : '.' ∈ ("-3.5" : String).data :=
  extract_floats_sign_spec.2.2 "-3.5" "-3.5" (by decide) ⟨'-', by decide, Or.inl rfl⟩

/- ### C8: zero matched files -/

/-- C8 counterexample: with zero matched files `data_load` does not return
at all — it raises the unbound-`shape` NameError — so it does not
"silently produce empty results". -/
theorem data_load_empty_cex :
    ¬ ∃ res, data_load [] true false (fun _ _ _ => 0) [] = .ok res := by
  rintro ⟨res, h⟩
  rw [show data_load [] true false (fun _ _ _ => 0) [] =
      .error "name shape is not defined" from rfl] at h
  exact Except.noConfusion h

/-- C8 amended: with zero matched files the loading loops do leave the
image and label accumulators empty, but `data_load` then raises a
NameError dereferencing the never-assigned `shape` local instead of
returning them. -/
theorem data_load_empty_spec (o s : Bool) (nz : Nat → Nat → Nat → ℚ)
    (perm : List Nat) :
    foldFiles o s nz ⟨[], [], none, 0⟩ [] = .ok ⟨[], [], none, 0⟩ ∧
    data_load [] o s nz perm = .error "name shape is not defined" :=
  ⟨rfl, rfl⟩

/- ### The loading loops: structural specification -/

/-- `stepImage` on a successfully transformed image. -/
lemma stepImage_ok (o s : Bool) (nz : Nat → Nat → Nat → ℚ) (t : ℚ)
    (st : LoadState) (raw img : Img)
    (hp : processImage o s (mkNoise (nz st.counter)) raw = .ok img) :
    stepImage o s nz t st raw =
      .ok ⟨st.inputs ++ [img, rollImg 42 42 img, rollImg 120 120 img],
           st.outputs ++ [t, t, t], some (img.h, img.w, 1), st.counter + 1⟩ := by
  unfold stepImage
  rw [hp]

/-- A successful run of the inner image loop appends, for each stored
image, one transformed image with its two rolled copies and the label
three times; every appended base image is a `processImage` output of one
of the stored images. -/
lemma foldImgs_ok (o s : Bool) (nz : Nat → Nat → Nat → ℚ) (t : ℚ)
    (imgs : List Img) (st st1 : LoadState)
    (h : foldImgs o s nz t st imgs = .ok st1) :
    ∃ L : List (ℚ × Img),
      st1.inputs = st.inputs ++ (tripPairs L).map Prod.fst ∧
      st1.outputs = st.outputs ++ (tripPairs L).map Prod.snd ∧
      L.map Prod.fst = imgs.map (fun _ => t) ∧
      ∀ p ∈ L, ∃ raw ∈ imgs, ∃ k,
        processImage o s (mkNoise (nz k)) raw = .ok p.2 := by
  induction imgs generalizing st with
  | nil =>
    rw [show foldImgs o s nz t st [] = .ok st from rfl] at h
    obtain rfl : st = st1 := by
      cases h
      rfl
    exact ⟨[], by simp [tripPairs], by simp [tripPairs], rfl, by simp⟩
  | cons raw rest ih =>
    rw [show foldImgs o s nz t st (raw :: rest) =
        (match stepImage o s nz t st raw with
          | .error e => .error e
          | .ok st2 => foldImgs o s nz t st2 rest) from rfl] at h
    cases hp : processImage o s (mkNoise (nz st.counter)) raw with
    | error e =>
      rw [show stepImage o s nz t st raw = .error e from by unfold stepImage; rw [hp]] at h
      exact absurd h (by simp)
    | ok img =>
      rw [stepImage_ok o s nz t st raw img hp] at h
      dsimp only at h
      obtain ⟨L2, h1, h2, h3, h4⟩ := ih _ h
      refine ⟨(t, img) :: L2, ?_, ?_, ?_, ?_⟩
      · rw [h1]
        simp [tripPairs, List.flatMap_cons]
      · rw [h2]
        simp [tripPairs, List.flatMap_cons]
      · simp only [List.map_cons, h3]
      · intro p hp2
        rcases List.mem_cons.mp hp2 with rfl | hmem
        · exact ⟨raw, List.mem_cons_self _ _, st.counter, hp⟩
        · obtain ⟨r0, hr0, k, hk⟩ := h4 p hmem
          exact ⟨r0, List.mem_cons_of_mem _ hr0, k, hk⟩

/-- `tripPairs` distributes over append. -/
lemma tripPairs_append (L1 L2 : List (ℚ × Img)) :
    tripPairs (L1 ++ L2) = tripPairs L1 ++ tripPairs L2 := by
  simp [tripPairs]

/-- Each pair contributes three triplet entries. -/
lemma tripPairs_length (L : List (ℚ × Img)) :
    (tripPairs L).length = 3 * L.length := by
  induction L with
  | nil => rfl
  | cons p L ih =>
    simp only [tripPairs, List.flatMap_cons] at *
    simp [ih]
    omega

/-- Membership in the triplet list comes from some labelled image. -/
lemma tripPairs_mem (L : List (ℚ × Img)) (q : Img × ℚ) (hq : q ∈ tripPairs L) :
    ∃ p ∈ L, q = (p.2, p.1) ∨ q = (rollImg 42 42 p.2, p.1) ∨
      q = (rollImg 120 120 p.2, p.1) := by
  rw [tripPairs, List.mem_flatMap] at hq
  obtain ⟨p, hp, hq2⟩ := hq
  refine ⟨p, hp, ?_⟩
  simpa using hq2

/-- A successful run of the outer file loop appends the triplets of all
stored images; the labels follow the file sequence (each file's parsed
first float once per stored image), and every appended base image is a
`processImage` output of an image stored in one of the files. -/
lemma foldFiles_ok (o s : Bool) (nz : Nat → Nat → Nat → ℚ)
    (files : List (String × List Img)) (st st1 : LoadState)
    (h : foldFiles o s nz st files = .ok st1) :
    ∃ L : List (ℚ × Img),
      st1.inputs = st.inputs ++ (tripPairs L).map Prod.fst ∧
      st1.outputs = st.outputs ++ (tripPairs L).map Prod.snd ∧
      L.map Prod.fst = fileLabels files ∧
      ∀ p ∈ L, ∃ f ∈ files, ∃ raw ∈ f.2, ∃ k,
        processImage o s (mkNoise (nz k)) raw = .ok p.2 := by
  induction files generalizing st with
  | nil =>
    rw [show foldFiles o s nz st [] = .ok st from rfl] at h
    obtain rfl : st = st1 := by
      cases h
      rfl
    exact ⟨[], by simp [tripPairs], by simp [tripPairs], rfl, by simp⟩
  | cons f rest ih =>
    rw [show foldFiles o s nz st (f :: rest) =
        (match extract_floats f.1 with
          | [] => .error "list index out of range"
          | t :: _ =>
            match foldImgs o s nz (parseFloatQ t) st f.2 with
            | .error e => .error e
            | .ok st2 => foldFiles o s nz st2 rest) from rfl] at h
    cases he : extract_floats f.1 with
    | nil =>
      rw [he] at h
      exact absurd h (by simp)
    | cons tok toks =>
      rw [he] at h
      dsimp only at h
      cases hfi : foldImgs o s nz (parseFloatQ tok) st f.2 with
      | error e =>
        rw [hfi] at h
        exact absurd h (by simp)
      | ok st2 =>
        rw [hfi] at h
        dsimp only at h
        obtain ⟨L1, a1, a2, a3, a4⟩ := foldImgs_ok o s nz (parseFloatQ tok) f.2 st st2 hfi
        obtain ⟨L2, b1, b2, b3, b4⟩ := ih _ h
        have hlabel : fileLabel f.1 = parseFloatQ tok := by
          rw [fileLabel, he]
        refine ⟨L1 ++ L2, ?_, ?_, ?_, ?_⟩
        · rw [b1, a1, tripPairs_append]
          simp [List.append_assoc]
        · rw [b2, a2, tripPairs_append]
          simp [List.append_assoc]
        · rw [List.map_append, a3, b3]
          rw [show fileLabels (f :: rest) =
              (f.2.map fun _ => fileLabel f.1) ++ fileLabels rest from by
            simp [fileLabels, List.flatMap_cons]]
          rw [hlabel]
        · intro p hp
          rcases List.mem_append.mp hp with h1 | h2
          · obtain ⟨raw, hraw, k, hk⟩ := a4 p h1
            exact ⟨f, List.mem_cons_self _ _, raw, hraw, k, hk⟩
          · obtain ⟨f2, hf2, raw, hraw, k, hk⟩ := b4 p h2
            exact ⟨f2, List.mem_cons_of_mem _ hf2, raw, hraw, k, hk⟩

/-- Zipping the two projections of a pair list recovers the list. -/
lemma zip_map_fst_snd_eq {α β : Type} (l : List (α × β)) :
    (l.map Prod.fst).zip (l.map Prod.snd) = l := by
  induction l with
  | nil => rfl
  | cons p t ih => simp [ih]

/-- Selecting positions `0, …, n-1` of an `n`-element list returns it. -/
lemma filterMap_range_getElem {α : Type} (l : List α) :
    (List.range l.length).filterMap (fun i => l[i]?) = l := by
  induction l with
  | nil => rfl
  | cons a t ih =>
    rw [List.length_cons, List.range_succ_eq_map, List.filterMap_cons]
    simp only [List.getElem?_cons_zero]
    rw [List.filterMap_map]
    have hcomp : ((fun i => (a :: t)[i]?) ∘ Nat.succ) = fun i => t[i]? := by
      funext i
      simp
    rw [hcomp, ih]

/-- Reindexing by a permutation of the index range permutes the list. -/
lemma applyPerm_perm {α : Type} (perm : List Nat) (l : List α)
    (hp : perm.Perm (List.range l.length)) : (applyPerm perm l).Perm l := by
  have h1 := List.Perm.filterMap (fun i => l[i]?) hp
  rw [filterMap_range_getElem] at h1
  exact h1

/-- Every selected element is an element of the source list. -/
lemma applyPerm_mem {α : Type} (perm : List Nat) (l : List α) (x : α)
    (hx : x ∈ applyPerm perm l) : x ∈ l := by
  rw [applyPerm, List.mem_filterMap] at hx
  obtain ⟨i, _, hi⟩ := hx
  exact List.getElem?_mem hi

/-- One label per stored image: the label sequence counts the images. -/
lemma fileLabels_length (files : List (String × List Img)) :
    (fileLabels files).length = totalImages files := by
  induction files with
  | nil => rfl
  | cons f rest ih =>
    simp only [fileLabels, List.flatMap_cons, List.length_append, List.length_map,
      totalImages, List.map_cons, List.sum_cons] at *
    omega

/- ### C1: shape of the loaded dataset -/

/-- C1: on any successful run, the returned image and label arrays have
equal length, that common length is three times the number of images
stored in the matched files, and up to the final shuffle the data is a
sequence of triplets — each processed image with its two rolled copies,
all three carrying the same label, the parsed first float substring of
the originating file's path (the label sequence `fileLabels files`). -/
theorem data_load_triplets (files : List (String × List Img)) (o s : Bool)
    (nz : Nat → Nat → Nat → ℚ) (perm : List Nat)
    (ins : List Img) (outs : List ℚ) (sh : Nat × Nat × Nat)
    (h : data_load files o s nz perm = .ok (ins, outs, sh))
    (hp : perm.Perm (List.range (3 * totalImages files))) :
    ins.length = outs.length ∧ ins.length = 3 * totalImages files ∧
    ∃ L : List (ℚ × Img),
      L.map Prod.fst = fileLabels files ∧
      (ins.zip outs).Perm (tripPairs L) := by
  unfold data_load at h
  cases hf : foldFiles o s nz ⟨[], [], none, 0⟩ files with
  | error e =>
    rw [hf] at h
    exact absurd h (by simp)
  | ok st =>
    rw [hf] at h
    dsimp only at h
    cases hsh : st.shape with
    | none =>
      rw [hsh] at h
      exact absurd h (by simp)
    | some sh0 =>
      rw [hsh] at h
      dsimp only at h
      rw [Except.ok.injEq, Prod.mk.injEq] at h
      obtain ⟨hins, hrest⟩ := h
      rw [Prod.mk.injEq] at hrest
      obtain ⟨houts, hsh2⟩ := hrest
      obtain ⟨L, c1, c2, c3, c4⟩ := foldFiles_ok o s nz files _ st hf
      simp only [List.nil_append] at c1 c2
      have hpairs : st.inputs.zip st.outputs = tripPairs L := by
        rw [c1, c2, zip_map_fst_snd_eq]
      have hLlen : L.length = totalImages files := by
        rw [← fileLabels_length, ← c3, List.length_map]
      have hplen : (st.inputs.zip st.outputs).length = 3 * totalImages files := by
        rw [hpairs, tripPairs_length, hLlen]
      have hperm : (applyPerm perm (st.inputs.zip st.outputs)).Perm
          (st.inputs.zip st.outputs) := by
        apply applyPerm_perm
        rw [hplen]
        exact hp
      have hshuf : ins.zip outs = applyPerm perm (st.inputs.zip st.outputs) := by
        rw [← hins, ← houts, zip_map_fst_snd_eq]
      refine ⟨?_, ?_, L, c3, ?_⟩
      · rw [← hins, ← houts, List.length_map, List.length_map]
      · rw [← hins, List.length_map, hperm.length_eq, hplen]
      · rw [hshuf, hpairs] at *
        exact hperm.trans (by rw [hpairs])
  
/-- C1 witness: a one-file, one-image dataset with the identity shuffle. -/
theorem data_load_triplets_witness :
    ∃ ins outs sh,
      data_load sampleFiles false false (fun _ _ _ => 1) [0, 1, 2]
        = .ok (ins, outs, sh) ∧
      ins.length = outs.length ∧ ins.length = 3 * totalImages sampleFiles := by
  refine ⟨_, _, _, rfl, ?_, ?_⟩
  · exact (data_load_triplets sampleFiles false false (fun _ _ _ => 1) [0, 1, 2]
      _ _ _ rfl (by decide)).1
  · exact (data_load_triplets sampleFiles false false (fun _ _ _ => 1) [0, 1, 2]
      _ _ _ rfl (by decide)).2.1

/- ### C3: pixel value ranges -/

/-- An in-range modular index. -/
lemma emod_toNat_lt (x : Int) (n : Nat) (hn : 0 < n) : (x % (n : Int)).toNat < n := by
  have hne : (n : Int) ≠ 0 := by exact_mod_cast Nat.pos_iff_ne_zero.mp hn
  have h1 : 0 ≤ x % (n : Int) := Int.emod_nonneg x hne
  have h2 : x % (n : Int) < (n : Int) := Int.emod_lt_of_pos x (by exact_mod_cast hn)
  omega

/-- Rolling never changes the multiset of in-range pixel values, so it
preserves any value-range invariant. -/
lemma rollImg_pixIn (k₀ k₁ : Int) (a : Img) (S : List ℚ) (h : pixIn a S) :
    pixIn (rollImg k₀ k₁ a) S := by
  intro i hi j hj
  have hi2 : i < a.h := hi
  have hj2 : j < a.w := hj
  exact h _ (emod_toNat_lt _ _ (Nat.pos_of_ne_zero (by omega)))
          _ (emod_toNat_lt _ _ (Nat.pos_of_ne_zero (by omega)))

/-- With `orientation=False, scrambled=False` the transformation of a
{0,…,4}-valued image is {0,1}-valued. -/
lemma processImage_pixIn_plain (noise raw img : Img)
    (hp : processImage false false noise raw = .ok img)
    (hr : pixIn raw [0, 1, 2, 3, 4]) : pixIn img [0, 1] := by
  rw [show processImage false false noise raw =
      .ok ⟨raw.h, raw.w, fun i j => if 0 < raw.pix i j then 1 else raw.pix i j⟩
    from rfl, Except.ok.injEq] at hp
  subst hp
  intro i hi j hj
  have hm := hr i hi j hj
  dsimp only
  by_cases h0 : 0 < raw.pix i j
  · simp [h0]
  · rw [if_neg h0]
    simp only [List.mem_cons, List.not_mem_nil, or_false] at hm ⊢
    rcases hm with h1 | h1 | h1 | h1 | h1
    · exact Or.inl h1
    all_goals rw [h1] at h0
    all_goals norm_num at h0

/-- With `orientation=True` the transformation of a {0,…,4}-valued image
is {0,¼,½,¾,1}-valued. -/
lemma processImage_pixIn_orientation (s : Bool) (noise raw img : Img)
    (hp : processImage true s noise raw = .ok img)
    (hr : pixIn raw [0, 1, 2, 3, 4]) : pixIn img [0, 1/4, 1/2, 3/4, 1] := by
  rw [show processImage true s noise raw =
      .ok ⟨raw.h, raw.w, fun i j => raw.pix i j / 4⟩ from rfl,
    Except.ok.injEq] at hp
  subst hp
  intro i hi j hj
  have hm := hr i hi j hj
  dsimp only
  simp only [List.mem_cons, List.not_mem_nil, or_false] at hm ⊢
  rcases hm with h1 | h1 | h1 | h1 | h1 <;> rw [h1] <;> norm_num

/-- Every image array entry of a successful `data_load` run satisfies any
value-range invariant that the per-image transformation establishes on
{0,…,4}-valued inputs. -/
lemma data_load_pixIn (o s : Bool) (S : List ℚ)
    (files : List (String × List Img)) (nz : Nat → Nat → Nat → ℚ)
    (perm : List Nat) (ins : List Img) (outs : List ℚ) (sh : Nat × Nat × Nat)
    (h : data_load files o s nz perm = .ok (ins, outs, sh))
    (hraw : ∀ f ∈ files, ∀ raw ∈ f.2, pixIn raw [0, 1, 2, 3, 4])
    (htrans : ∀ noise raw img, processImage o s noise raw = .ok img →
      pixIn raw [0, 1, 2, 3, 4] → pixIn img S) :
    ∀ img ∈ ins, pixIn img S := by
  unfold data_load at h
  cases hf : foldFiles o s nz ⟨[], [], none, 0⟩ files with
  | error e =>
    rw [hf] at h
    exact absurd h (by simp)
  | ok st =>
    rw [hf] at h
    dsimp only at h
    cases hsh : st.shape with
    | none =>
      rw [hsh] at h
      exact absurd h (by simp)
    | some sh0 =>
      rw [hsh] at h
      dsimp only at h
      rw [Except.ok.injEq, Prod.mk.injEq] at h
      obtain ⟨hins, _⟩ := h
      obtain ⟨L, c1, _, _, c4⟩ := foldFiles_ok o s nz files _ st hf
      simp only [List.nil_append] at c1
      intro img himg
      rw [← hins] at himg
      obtain ⟨q, hq, hq2⟩ := List.mem_map.mp himg
      have hq3 : q ∈ st.inputs.zip st.outputs := applyPerm_mem _ _ _ hq
      have hq4 : q.1 ∈ st.inputs := (List.of_mem_zip hq3).1
      rw [c1] at hq4
      obtain ⟨q2, hq5, hq6⟩ := List.mem_map.mp hq4
      obtain ⟨p, hpL, hcase⟩ := tripPairs_mem L q2 hq5
      obtain ⟨f, hfmem, raw, hrawmem, k, hk⟩ := c4 p hpL
      have hbase : pixIn p.2 S := htrans _ _ _ hk (hraw f hfmem raw hrawmem)
      have himg2 : pixIn q2.1 S := by
        rcases hcase with h1 | h1 | h1 <;> rw [h1]
        · exact hbase
        · exact rollImg_pixIn _ _ _ _ hbase
        · exact rollImg_pixIn _ _ _ _ hbase
      rw [hq6, hq2] at himg2
      exact himg2

/-- C3: when every raw pixel lies in {0,1,2,3,4}, a successful
`data_load` with `orientation=False, scrambled=False` yields images with
all pixels in {0,1}, and with `orientation=True` (either `scrambled`)
images with all pixels in {0,¼,½,¾,1}. -/
theorem data_load_pixel_range (files : List (String × List Img))
    (nz : Nat → Nat → Nat → ℚ) (perm : List Nat)
    (hraw : ∀ f ∈ files, ∀ raw ∈ f.2, pixIn raw [0, 1, 2, 3, 4]) :
    (∀ ins outs sh, data_load files false false nz perm = .ok (ins, outs, sh) →
      ∀ img ∈ ins, pixIn img [0, 1]) ∧
    (∀ s ins outs sh, data_load files true s nz perm = .ok (ins, outs, sh) →
      ∀ img ∈ ins, pixIn img [0, 1/4, 1/2, 3/4, 1]) := by
  constructor
  · intro ins outs sh h
    exact data_load_pixIn false false [0, 1] files nz perm ins outs sh h hraw
      fun noise raw img hp hr => processImage_pixIn_plain noise raw img hp hr
  · intro s ins outs sh h
    exact data_load_pixIn true s [0, 1/4, 1/2, 3/4, 1] files nz perm ins outs sh h hraw
      fun noise raw img hp hr => processImage_pixIn_orientation s noise raw img hp hr

/-- C3 witness: the loader run on the sample dataset in both modes. -/
theorem data_load_pixel_range_witness :
    (∃ ins outs sh,
      data_load sampleFiles false false (fun _ _ _ => 1) [0, 1, 2]
        = .ok (ins, outs, sh) ∧ ∀ img ∈ ins, pixIn img [0, 1]) ∧
    (∃ ins outs sh,
      data_load sampleFiles true false (fun _ _ _ => 1) [0, 1, 2]
        = .ok (ins, outs, sh) ∧ ∀ img ∈ ins, pixIn img [0, 1/4, 1/2, 3/4, 1]) := by
  have hraw : ∀ f ∈ sampleFiles, ∀ raw ∈ f.2, pixIn raw [0, 1, 2, 3, 4] := by
    intro f hf raw hr
    rw [sampleFiles, List.mem_singleton] at hf
    subst hf
    rw [List.mem_singleton] at hr
    subst hr
    intro i hi j hj
    rw [show sampleImg.pix i j = 2 from rfl]
    norm_num
  constructor
  · exact ⟨_, _, _, rfl,
      (data_load_pixel_range sampleFiles (fun _ _ _ => 1) [0, 1, 2] hraw).1 _ _ _ rfl⟩
  · exact ⟨_, _, _, rfl,
      (data_load_pixel_range sampleFiles (fun _ _ _ => 1) [0, 1, 2] hraw).2 false _ _ _ rfl⟩

/- ### C6: the overlap indicator -/

/-- The left fold of `min` is bounded by its seed and by every element. -/
lemma foldl_min_le (l : List ℚ) (a : ℚ) :
    l.foldl min a ≤ a ∧ ∀ b ∈ l, l.foldl min a ≤ b := by
  induction l generalizing a with
  | nil => simp
  | cons x xs ih =>
    simp only [List.foldl_cons]
    obtain ⟨h1, h2⟩ := ih (min a x)
    refine ⟨le_trans h1 (min_le_left _ _), ?_⟩
    intro b hb
    rcases List.mem_cons.mp hb with rfl | hb2
    · exact le_trans h1 (min_le_right _ _)
    · exact h2 b hb2

/-- The left fold of `max` dominates its seed and every element. -/
lemma le_foldl_max (l : List ℚ) (a : ℚ) :
    a ≤ l.foldl max a ∧ ∀ b ∈ l, b ≤ l.foldl max a := by
  induction l generalizing a with
  | nil => simp
  | cons x xs ih =>
    simp only [List.foldl_cons]
    obtain ⟨h1, h2⟩ := ih (max a x)
    refine ⟨le_trans (le_max_left _ _) h1, ?_⟩
    intro b hb
    rcases List.mem_cons.mp hb with rfl | hb2
    · exact le_trans (le_max_right _ _) h1
    · exact h2 b hb2

/-- `np.min`: the reported minimum bounds every element. -/
lemma min?_le_mem (l : List ℚ) (mn : ℚ) (h : l.min? = some mn) :
    ∀ b ∈ l, mn ≤ b := by
  cases l with
  | nil => cases h
  | cons a as =>
    rw [show (a :: as).min? = some (as.foldl min a) from rfl, Option.some_inj] at h
    intro b hb
    rcases List.mem_cons.mp hb with rfl | hb2
    · rw [← h]
      exact (foldl_min_le as b).1
    · rw [← h]
      exact (foldl_min_le as a).2 b hb2

/-- `np.max`: the reported maximum dominates every element. -/
lemma mem_le_max? (l : List ℚ) (mx : ℚ) (h : l.max? = some mx) :
    ∀ b ∈ l, b ≤ mx := by
  cases l with
  | nil => cases h
  | cons a as =>
    rw [show (a :: as).max? = some (as.foldl max a) from rfl, Option.some_inj] at h
    intro b hb
    rcases List.mem_cons.mp hb with rfl | hb2
    · rw [← h]
      exact (le_foldl_max as b).1
    · rw [← h]
      exact (le_foldl_max as a).2 b hb2

/-- A label present in `actual` pairs with some prediction in the zip. -/
lemma exists_pair_of_mem (actual predictions : List ℚ) (val : ℚ)
    (hlen : predictions.length = actual.length) (hval : val ∈ actual) :
    ∃ x, (val, x) ∈ actual.zip predictions := by
  induction actual generalizing predictions with
  | nil => cases hval
  | cons a as ih =>
    cases predictions with
    | nil => simp at hlen
    | cons p ps =>
      rcases List.mem_cons.mp hval with rfl | hrest
      · exact ⟨p, by simp⟩
      · obtain ⟨x, hx⟩ := ih ps (by simpa using hlen) hrest
        exact ⟨x, List.mem_cons_of_mem _ hx⟩

/-- A label occurring in `actual` selects a nonempty prediction group. -/
lemma predictionsMapped_ne_nil (predictions actual : List ℚ) (val : ℚ)
    (hlen : predictions.length = actual.length) (hval : val ∈ actual) :
    predictionsMapped predictions actual val ≠ [] := by
  obtain ⟨x, hx⟩ := exists_pair_of_mem actual predictions val hlen hval
  have hfil : (val, x) ∈ (actual.zip predictions).filter fun p => p.1 == val := by
    rw [List.mem_filter]
    exact ⟨hx, by simp⟩
  have hxm : x ∈ predictionsMapped predictions actual val := by
    rw [predictionsMapped]
    exact List.mem_map.mpr ⟨(val, x), hfil, rfl⟩
  intro hnil
  rw [hnil] at hxm
  cases hxm

/-- C6: for every label value occurring in `actual` (prediction and label
arrays of equal length) the overlap indicator is defined, it is true
exactly when `val + 1e-3` is at least the minimum and `val - 1e-3` at
most the maximum of that label's predictions, and when some prediction of
that label equals the label exactly it is true. -/
theorem overlap_spec (predictions actual : List ℚ) (val : ℚ)
    (hlen : predictions.length = actual.length) (hval : val ∈ actual) :
    ∃ b mn mx, overlapInd predictions actual val = some b ∧
      (predictionsMapped predictions actual val).min? = some mn ∧
      (predictionsMapped predictions actual val).max? = some mx ∧
      (b = true ↔ (mn ≤ val + 1/1000 ∧ val - 1/1000 ≤ mx)) ∧
      (val ∈ predictionsMapped predictions actual val → b = true) := by
  have hne := predictionsMapped_ne_nil predictions actual val hlen hval
  obtain ⟨p0, pm, hpm⟩ : ∃ p0 pm, predictionsMapped predictions actual val = p0 :: pm := by
    cases hpm : predictionsMapped predictions actual val with
    | nil => exact absurd hpm hne
    | cons p0 pm => exact ⟨p0, pm, rfl⟩
  have hmn : (predictionsMapped predictions actual val).min? = some (pm.foldl min p0) := by
    rw [hpm]
    rfl
  have hmx : (predictionsMapped predictions actual val).max? = some (pm.foldl max p0) := by
    rw [hpm]
    rfl
  refine ⟨decide (pm.foldl min p0 ≤ val + 1/1000) && decide (val - 1/1000 ≤ pm.foldl max p0),
    pm.foldl min p0, pm.foldl max p0, ?_, hmn, hmx, ?_, ?_⟩
  · rw [overlapInd]
    rw [show predictionsMapped predictions actual val = p0 :: pm from hpm]
    rfl
  · rw [Bool.and_eq_true, decide_eq_true_iff, decide_eq_true_iff]
  · intro hmem
    have h1 : pm.foldl min p0 ≤ val :=
      min?_le_mem _ _ hmn val hmem
    have h2 : val ≤ pm.foldl max p0 :=
      mem_le_max? _ _ hmx val hmem
    rw [Bool.and_eq_true, decide_eq_true_iff, decide_eq_true_iff]
    constructor
    · linarith
    · linarith

/-- C6 witness: a single prediction equal to its label. -/
theorem overlap_spec_witness :
    ∃ b mn mx, overlapInd [(1 : ℚ)/2] [(1 : ℚ)/2] (1/2) = some b ∧
      (predictionsMapped [(1 : ℚ)/2] [(1 : ℚ)/2] (1/2)).min? = some mn ∧
      (predictionsMapped [(1 : ℚ)/2] [(1 : ℚ)/2] (1/2)).max? = some mx ∧
      (b = true ↔ (mn ≤ 1/2 + 1/1000 ∧ 1/2 - 1/1000 ≤ mx)) ∧
      ((1 : ℚ)/2 ∈ predictionsMapped [(1 : ℚ)/2] [(1 : ℚ)/2] (1/2) → b = true) :=
  overlap_spec [(1 : ℚ)/2] [(1 : ℚ)/2] (1/2) rfl (by norm_num)

/-- C9 witness: a 128×128 image is accepted by the scrambled branch. -/
theorem scrambled_broadcast_shape_witness :
    exceptOk (processImage false true (mkNoise fun _ _ => 1)
      ⟨128, 128, fun _ _ => 0⟩) = true :=
  (scrambled_broadcast_shape ⟨128, 128, fun _ _ => 0⟩ (fun _ _ => 1)).1.mpr
    (by norm_num)

/-- C8 witness: the amended statement at concrete arguments. -/
theorem data_load_empty_spec_witness :
    data_load [] false false (fun _ _ _ => 1) [] =
      .error "name shape is not defined" :=
  (data_load_empty_spec false false (fun _ _ _ => 1) []).2
